import Mathlib

/-!
# Verification of the brc-rust parallel aggregation pipeline

Shallow embedding of `src/main.rs` (tangledbytes/brc-rust).

Modeling conventions:
* bytes are natural numbers (each `< 256`); the input buffer is a `List ℕ`;
* `u32` arithmetic (the FNV-1a hash) is `ℕ` with explicit `% 2 ^ 32`
  after every wrapping multiplication;
* `f32` values are modeled as exact rationals `ℚ` (every parsed value is a
  small scaled integer divided by ten) and `u32` counters as `ℕ`; IEEE-754
  rounding of the running `f32` sums and the overflow behavior of the `u32`
  counters are outside this model, so statements whose truth depends on
  them are not settled here;
* panics (`panic!`, `expect`, out-of-bounds safe indexing) and undefined
  behavior (`get_unchecked` out of bounds on malformed records) are both
  modeled as `none`; fallible functions therefore return `Option`;
* the `Map` stores `slots1`/`slots2` arrays in lockstep (the source
  `expect`s that they agree), so the model keeps a single list of occupied
  slots ordered by ascending slot index — exactly the order in which
  `MapIter` (the `IntoIterator` of `Map`) yields entries;
* the threads of `cluster_process` share no mutable state, so the parallel
  phase is modeled as the list of per-lane results, merged in lane order
  exactly as the sequential merge loop does.
-/

namespace BRC

/-- `const MAP_SIZE: usize = 10829;` -/
def MAP_SIZE : ℕ := 10829

/-- `struct Data { min: f32, max: f32, sum: f32, count: u32 }`,
with `f32` modeled as `ℚ` and `u32` as `ℕ`. -/
structure Data where
  min : ℚ
  max : ℚ
  sum : ℚ
  count : ℕ
deriving DecidableEq, Repr

/-- `let slot_idx = (hash as usize) % MAP_SIZE;` — the slot index
derivation used by both `insert_with_hash` and `get_mut_with_hash`. -/
def slot_idx (hash : ℕ) : ℕ := hash % MAP_SIZE

/-- One occupied slot of the table: the stored hash (`slots1[i]`) together
with the stored key span and statistics (`slots2[i]`). -/
structure MapEntry where
  hash : ℕ
  key : List ℕ
  data : Data
deriving DecidableEq, Repr

/-- The slot an entry occupies. -/
def MapEntry.slot (e : MapEntry) : ℕ := slot_idx e.hash

/-- `struct Map`: the two fixed-size slot arrays, modeled as the list of
occupied slots in ascending slot order. -/
abbrev Map := List MapEntry

/-- `Map::new()` — all slots empty. -/
def Map.new : Map := []

/-- One step of FNV-1a: `v ^= *ch as u32; v = v.wrapping_mul(16777619);`. -/
def fnvStep (v ch : ℕ) : ℕ := (Nat.xor v ch) * 16777619 % 2 ^ 32

/-- `Map::hash` — 32-bit FNV-1a over the key bytes, initial value
`2166136261`. -/
def Map.hash (k : List ℕ) : ℕ := k.foldl fnvStep 2166136261

/-- The occupied slot at index `slot`, if any (reading `slots1[slot]` /
`slots2[slot]`). -/
def Map.findSlot (m : Map) (slot : ℕ) : Option MapEntry :=
  m.find? fun e => e.slot == slot

/-- Overwriting the statistics stored in slot `slot` (a `&mut Data` write
through the reference returned by the lookup). The stored key span is left
unchanged. -/
def Map.setData (m : Map) (slot : ℕ) (d : Data) : Map :=
  m.map fun e => if e.slot = slot then { e with data := d } else e

/-- Inserting an entry into the slot list, keeping ascending slot order
(the model of writing `slots1[slot_idx]`/`slots2[slot_idx]` in the array). -/
def Map.insertSorted : Map → MapEntry → Map
  | [], e => [e]
  | x :: xs, e => if e.slot < x.slot then e :: x :: xs else x :: Map.insertSorted xs e

/-- `Map::insert_with_hash`. On an occupied slot whose stored hash differs
the source panics (`"unexpected insert collision"`): modeled as `none`.
On a stored-hash match it overwrites the statistics (`slot2.1 = v`),
keeping the stored key. -/
def Map.insert_with_hash (m : Map) (k : List ℕ) (v : Data) (hash : ℕ) : Option Map :=
  let slot := slot_idx hash
  match m.findSlot slot with
  | some e => if e.hash = hash then some (m.setData slot v) else none
  | none => some (m.insertSorted ⟨hash, k, v⟩)

/-- `Map::get_mut_with_hash`. Outer `none` is the
`"unexpected read collision"` panic; inner `Option` is the lookup result.
Note the key bytes `k` are never inspected — only the hash is compared. -/
def Map.get_mut_with_hash (m : Map) (k : List ℕ) (hash : ℕ) : Option (Option Data) :=
  match m.findSlot (slot_idx hash) with
  | some e => if e.hash = hash then some (some e.data) else none
  | none => some none

/-- `Map::insert` — insert after hashing the key. -/
def Map.insert (m : Map) (k : List ℕ) (v : Data) : Option Map :=
  m.insert_with_hash k v (Map.hash k)

/-- `Map::get_mut` — lookup after hashing the key. -/
def Map.get_mut (m : Map) (k : List ℕ) : Option (Option Data) :=
  m.get_mut_with_hash k (Map.hash k)

/-- `struct ParseResult`, with the value as an exact rational. -/
structure ParseResult where
  place : List ℕ
  place_hash : ℕ
  val : ℚ
  next : ℕ
deriving DecidableEq, Repr

/-- The delimiter-search loop of `parse_line`, walking the byte list that
starts at index `idx` of the buffer while folding the FNV-1a hash. Returns
the absolute index of the `;` and the hash of the bytes before it; `none`
when the buffer ends first (the source then reads past the end —
undefined behavior). -/
def findDelimAux : List ℕ → ℕ → ℕ → Option (ℕ × ℕ)
  | [], _, _ => none
  | ch :: rest, idx, h =>
    if ch = 59 then some (idx, h)
    else findDelimAux rest (idx + 1) (fnvStep h ch)

/-- The delimiter search of `parse_line` from absolute offset `offset`. -/
def findDelim (data : List ℕ) (offset : ℕ) : Option (ℕ × ℕ) :=
  findDelimAux (data.drop offset) offset 2166136261

/-- `(ch - b'0') as i32` — the `u8` subtraction wraps. -/
def wsub8 (a b : ℕ) : ℕ := (a + 256 - b) % 256

/-- `fn parse_line(data: &[u8], offset: usize) -> Option<ParseResult>`.

`some none` is the source's `None` (offset at or past the buffer end);
the outer `none` is undefined behavior (an out-of-bounds
`get_unchecked` on a malformed or truncated record). -/
def parse_line (data : List ℕ) (offset : ℕ) : Option (Option ParseResult) :=
  if offset ≥ data.length then some none
  else
    match findDelim data offset with
    | none => none
    | some (delim, loc_hash) =>
      let loc := (data.drop offset).take (delim - offset)
      let idx0 := delim + 1
      match data[idx0]? with
      | none => none
      | some ch0 =>
        let idx1 := if ch0 = 45 then idx0 + 1 else idx0
        let divisor : ℚ := if ch0 = 45 then -10 else 10
        match data[idx1]? with
        | none => none
        | some d1 =>
          let val1 := wsub8 d1 48 * 10
          match data[idx1 + 1]? with
          | none => none
          | some ch2 =>
            if ch2 = 46 then
              match data[idx1 + 2]? with
              | none => none
              | some f =>
                some (some ⟨loc, loc_hash, ((val1 + wsub8 f 48 : ℕ) : ℚ) / divisor, idx1 + 3⟩)
            else
              let val2 := (val1 + wsub8 ch2 48) * 10
              match data[idx1 + 3]? with
              | none => none
              | some f =>
                some (some ⟨loc, loc_hash, ((val2 + wsub8 f 48 : ℕ) : ℚ) / divisor, idx1 + 4⟩)

/-- The store-update half of `fn process`: given the parsed key span, its
hash and the parsed value, either fold the value into the existing
statistics or insert a fresh `{min: v, max: v, sum: v, count: 1}` entry
(the spec's `insert_or_update`). `none` is a collision panic. -/
def updateStore (store : Map) (k : List ℕ) (hash : ℕ) (v : ℚ) : Option Map :=
  match store.get_mut_with_hash k hash with
  | none => none
  | some (some d) =>
    let d' : Data :=
      { min := if v < d.min then v else d.min
        max := if v > d.max then v else d.max
        sum := d.sum + v
        count := d.count + 1 }
    some (store.setData (slot_idx hash) d')
  | some none => store.insert_with_hash k ⟨v, v, v, 1⟩ hash

/-- `fn process(data, offset, store) -> Option<usize>`: parse one record
at `offset` and fold it into the store. `none` is panic/UB;
`some (store, none)` is the source returning `None` (end of input);
`some (store, some next)` is the source returning `Some(next)`. -/
def process (data : List ℕ) (offset : ℕ) (store : Map) : Option (Map × Option ℕ) :=
  match parse_line data offset with
  | none => none
  | some none => some (store, none)
  | some (some parsed) =>
    match updateStore store parsed.place parsed.place_hash parsed.val with
    | none => none
    | some store2 => some (store2, some parsed.next)

/-- The `next` offset of a parse result, when parsing succeeded. -/
def plNext : Option (Option ParseResult) → Option ℕ
  | some (some r) => some r.next
  | _ => none

/-- The key span of a parse result, when parsing succeeded. -/
def plPlace : Option (Option ParseResult) → Option (List ℕ)
  | some (some r) => some r.place
  | _ => none

/-- The parsed value of a parse result, when parsing succeeded. -/
def plVal : Option (Option ParseResult) → Option ℚ
  | some (some r) => some r.val
  | _ => none

/-- The start-adjustment loop of `fn consume`: starting from candidate
offset `co ≠ 0`, advance until `data[co - 1] == b'\n'` and return `co`.
The walk is over the byte list starting at index `co - 1`; `none` models
the source's out-of-bounds index panic when no separator is found before
the buffer end. -/
def findStartAux : List ℕ → ℕ → Option ℕ
  | [], _ => none
  | ch :: rest, co => if ch = 10 then some co else findStartAux rest (co + 1)

/-- Step 1 of `fn consume`: `start = 0` when `chunk_offset == 0`, otherwise
the first offset at or after `chunk_offset` whose preceding byte is the
record separator. -/
def consumeStart (data : List ℕ) (chunk_offset : ℕ) : Option ℕ :=
  if chunk_offset = 0 then some 0
  else findStartAux (data.drop (chunk_offset - 1)) chunk_offset

/-- The scan loop of `fn consume`
(`while readptr - start < size { ... readptr = end + 1 ... }`), with an
explicit iteration budget. Every successful `process` advances `readptr`
by at least five bytes (`process_next_lower` below), so the budget
`size + 1` passed by `consume` is never exhausted; `consumeLoopF_congr`
below proves any sufficient budget gives the same result. -/
def consumeLoopF : ℕ → List ℕ → ℕ → ℕ → ℕ → Map → Option Map
  | 0, _, _, _, _, _ => none
  | fuel + 1, data, start, size, readptr, store =>
    if readptr - start < size then
      match process data readptr store with
      | none => none
      | some (store2, none) => some store2
      | some (store2, some e) => consumeLoopF fuel data start size (e + 1) store2
    else some store

/-- `fn consume(data, chunk_offset, size, store)`. -/
def consume (data : List ℕ) (chunk_offset size : ℕ) (store : Map) : Option Map :=
  match consumeStart data chunk_offset with
  | none => none
  | some start => consumeLoopF (size + 1) data start size start store

/-- One step of the merge loop of `cluster_process`: fold one drained
`(key, statistics)` pair of a lane-private table into the final table. -/
def mergeEntry (store : Map) (k : List ℕ) (v : Data) : Option Map :=
  match store.get_mut k with
  | none => none
  | some (some d) =>
    let d' : Data :=
      { min := if v.min < d.min then v.min else d.min
        max := if v.max > d.max then v.max else d.max
        sum := d.sum + v.sum
        count := d.count + v.count }
    some (store.setData (slot_idx (Map.hash k)) d')
  | some none => store.insert k ⟨v.min, v.max, v.sum, v.count⟩

/-- The merge phase of `cluster_process`: drain one lane's table in slot
order (the `MapIter` order) and fold every entry into `store`. -/
def mergeMap (store : Map) (lane : Map) : Option Map :=
  match lane with
  | [] => some store
  | e :: rest =>
    match mergeEntry store e.key e.data with
    | none => none
    | some store2 => mergeMap store2 rest

/-- `fn cluster_process`, with the lane count `cpus` as a parameter
(the source reads it from `available_parallelism`). Each lane `idx` runs
`consume` over the partition starting at `idx * size_per_cpu` of length
`size_per_cpu` (the last lane also takes the division remainder) against
a private fresh table; the lanes share no mutable state, so the parallel
phase is the list of per-lane results, merged in lane order. -/
def cluster_process (data : List ℕ) (cpus : ℕ) (store : Map) : Option Map :=
  let size := data.length
  let size_per_cpu := size / cpus
  let remains := size % cpus
  match (List.range cpus).mapM
      (fun idx => consume data (idx * size_per_cpu)
        (size_per_cpu + if idx = cpus - 1 then remains else 0) Map.new) with
  | none => none
  | some stores => stores.foldlM mergeMap store

/-- Claim-side reference: the `(key, value)` records found by one direct
sequential scan of the whole buffer from offset 0, each iteration parsing
one record with `parse_line` and stepping past its separator. The budget
`data.length + 1` is never exhausted since every record is at least five
bytes long. -/
def recordsF : ℕ → List ℕ → ℕ → List (List ℕ × ℚ)
  | 0, _, _ => []
  | fuel + 1, data, offset =>
    match parse_line data offset with
    | some (some r) => (r.place, r.val) :: recordsF fuel data (r.next + 1)
    | _ => []

/-- The records of the buffer, by direct sequential scan. -/
def records (data : List ℕ) : List (List ℕ × ℚ) := recordsF (data.length + 1) data 0

/-- Claim-side reference: the parsed values of the records carrying key
`k`, in scan order. -/
def scanVals (data : List ℕ) (k : List ℕ) : List ℚ :=
  ((records data).filter fun p => p.1 == k).map fun p => p.2

/-- The keys and counts held by a table, in slot order (rational fields
projected away). -/
def Map.countsView (m : Map) : List (List ℕ × ℕ) :=
  m.map fun e => (e.key, e.data.count)

/-- The sum of the `count` fields over all keys of a table. -/
def totalCount (m : Map) : ℕ := (m.map fun e => e.data.count).sum

/-- Claim-side reference for C10: scan records starting at `lo`,
processing every record whose start offset is `< hi` (the window
`[lo, hi)` of record starts), with the same per-record action as the
lane loop. -/
def windowScanF : ℕ → List ℕ → ℕ → ℕ → Map → Option Map
  | 0, _, _, _, _ => none
  | fuel + 1, data, hi, readptr, store =>
    if readptr < hi then
      match process data readptr store with
      | none => none
      | some (store2, none) => some store2
      | some (store2, some e) => windowScanF fuel data hi (e + 1) store2
    else some store

/-- The window scan over record starts in `[lo, hi)`. -/
def windowScan (data : List ℕ) (hi lo : ℕ) (store : Map) : Option Map :=
  windowScanF (hi - lo + 1) data hi lo store

/-- Claim-side reference: the numeric value named by a list of decimal
integer-digit bytes (`"2" ↦ 2`, `"25" ↦ 25`). -/
def decVal (ds : List ℕ) : ℕ := ds.foldl (fun acc d => acc * 10 + (d - 48)) 0

/-- The 36-byte buffer
`"aaaaaaaaaaaa;1.1\nbbbb;2.2\nccccc;3.3\n"` (three well-formed records). -/
def exBuf : List ℕ :=
  [97, 97, 97, 97, 97, 97, 97, 97, 97, 97, 97, 97, 59, 49, 46, 49, 10,
   98, 98, 98, 98, 59, 50, 46, 50, 10,
   99, 99, 99, 99, 99, 59, 51, 46, 51, 10]

/-- The key `"ccccc"` of the third record of `exBuf`. -/
def keyC : List ℕ := [99, 99, 99, 99, 99]

/-- The first FNV-1a collision key of the C9 witness (`"ktnfwokv"`). -/
def kc1 : List ℕ := [107, 116, 110, 102, 119, 111, 107, 118]

/-- The second FNV-1a collision key of the C9 witness (`"exlhhtet"`);
its 32-bit FNV-1a hash equals that of `kc1` (both are `1034159257`). -/
def kc2 : List ℕ := [101, 120, 108, 104, 104, 116, 101, 116]

/-! ## Loop-progress lemmas -/

/-- The delimiter search never moves backwards. -/
theorem findDelimAux_le {l : List ℕ} :
    ∀ {idx h d h2}, findDelimAux l idx h = some (d, h2) → idx ≤ d := by
  induction l with
  | nil => intro idx h d h2 hx; simp [findDelimAux] at hx
  | cons c rest ih =>
    intro idx h d h2 hx
    simp only [findDelimAux] at hx
    split at hx
    · cases hx; omega
    · have := ih hx; omega

/-- A successful parse advances the cursor by at least four bytes. -/
theorem parse_line_next {data : List ℕ} {offset : ℕ} {r : ParseResult}
    (hx : parse_line data offset = some (some r)) : offset + 4 ≤ r.next := by
  unfold parse_line at hx
  split at hx
  · simp at hx
  · split at hx
    · simp at hx
    · rename_i delim loc_hash heq
      unfold findDelim at heq
      have hd : offset ≤ delim := findDelimAux_le heq
      dsimp only at hx
      split at hx
      · simp at hx
      · split at hx
        · simp at hx
        · split at hx
          · simp at hx
          · split at hx
            · split at hx
              · simp at hx
              · cases hx with
                | refl => split <;> simp <;> omega
            · split at hx
              · simp at hx
              · cases hx with
                | refl => split <;> simp <;> omega

/-- A successful `process` advances the cursor by at least four bytes. -/
theorem process_next_lower {data : List ℕ} {offset : ℕ} {store m : Map} {e : ℕ}
    (hx : process data offset store = some (m, some e)) : offset + 4 ≤ e := by
  unfold process at hx
  split at hx
  · simp at hx
  · simp at hx
  · rename_i parsed heq
    split at hx
    · simp at hx
    · simp only [Option.some.injEq, Prod.mk.injEq] at hx
      obtain ⟨-, hx2⟩ := hx
      cases hx2
      exact parse_line_next heq

/-- Any sufficient iteration budget gives the scan loop the same result:
the budget is semantically inert. -/
theorem consumeLoopF_congr :
    ∀ (f1 f2 : ℕ) (data : List ℕ) (start size readptr : ℕ) (store : Map),
      start ≤ readptr → size - (readptr - start) < f1 → size - (readptr - start) < f2 →
      consumeLoopF f1 data start size readptr store =
        consumeLoopF f2 data start size readptr store := by
  intro f1
  induction f1 with
  | zero => intro f2 data start size readptr store hs h1 h2; omega
  | succ a ih =>
    intro f2 data start size readptr store hs h1 h2
    cases f2 with
    | zero => omega
    | succ b =>
      simp only [consumeLoopF]
      split
      · rename_i hg
        cases hp : process data readptr store with
        | none => rfl
        | some pr =>
          obtain ⟨store2, onext⟩ := pr
          cases onext with
          | none => rfl
          | some e =>
            have he := process_next_lower hp
            exact ih b data start size (e + 1) store2 (by omega) (by omega) (by omega)
      · rfl

/-! ## C7 — table capacity and slot derivation -/

/-- C7 counterexample: the claim asserts the fixed capacity is a prime
number, but `MAP_SIZE = 10829 = 7 * 7 * 13 * 17` is composite. -/
theorem C7_capacity_not_prime : MAP_SIZE = 10829 ∧ ¬ Nat.Prime MAP_SIZE := by
  refine ⟨rfl, ?_⟩
  rw [show MAP_SIZE = 7 * 1547 from rfl]
  exact Nat.not_prime_mul (by omega) (by omega)

/-- C7 (amended): the table's fixed capacity is the composite number
`10829` (= 7 · 7 · 13 · 17), larger than the expected distinct-key count
(on the order of hundreds), and every slot index is computed as the key
hash modulo this capacity. -/
theorem C7_amended_capacity :
    MAP_SIZE = 10829 ∧ ¬ Nat.Prime MAP_SIZE ∧ 999 < MAP_SIZE ∧
      ∀ h : ℕ, slot_idx h = h % MAP_SIZE := by
  refine ⟨rfl, C7_capacity_not_prime.2, by norm_num [MAP_SIZE], fun h => rfl⟩

/-! ## C8 — boundary adjustment -/

/-- The start-adjustment walk only moves forward, and the byte it stops
after is the record separator. -/
theorem findStartAux_spec :
    ∀ (l : List ℕ) (co p : ℕ), findStartAux l co = some p →
      co ≤ p ∧ l[p - co]? = some 10 := by
  intro l
  induction l with
  | nil => intro co p hx; simp [findStartAux] at hx
  | cons c rest ih =>
    intro co p hx
    simp only [findStartAux] at hx
    split at hx
    · rename_i hc
      cases hx
      exact ⟨le_refl _, by simp [hc]⟩
    · obtain ⟨h1, h2⟩ := ih (co + 1) p hx
      refine ⟨by omega, ?_⟩
      have hpc : p - co = (p - (co + 1)) + 1 := by omega
      rw [hpc, List.getElem?_cons_succ]
      exact h2

/-- C8: the first lane starts at offset 0 with no adjustment, and for a
nonzero partition boundary every successful adjustment yields a start
offset whose immediately preceding byte is the record separator `\n`. -/
theorem C8_boundary_adjustment :
    (∀ data : List ℕ, consumeStart data 0 = some 0) ∧
    ∀ (data : List ℕ) (off p : ℕ), off ≠ 0 → consumeStart data off = some p →
      1 ≤ p ∧ data[p - 1]? = some 10 := by
  constructor
  · intro data; simp [consumeStart]
  · intro data off p h0 hx
    simp only [consumeStart, if_neg h0] at hx
    obtain ⟨h1, h2⟩ := findStartAux_spec _ _ _ hx
    rw [List.getElem?_drop] at h2
    refine ⟨by omega, ?_⟩
    have hco : off - 1 + (p - off) = p - 1 := by omega
    rwa [hco] at h2

/-- C8 witness: at the concrete buffer `[10, 97]` and boundary 1, the
adjustment stops at offset 1, whose preceding byte is `\n`. -/
theorem C8_boundary_adjustment_witness :
    1 ≤ 1 ∧ ([10, 97] : List ℕ)[1 - 1]? = some 10 :=
  C8_boundary_adjustment.2 [10, 97] 1 1 (by decide) (by decide)

/-! ## C9 — lookup compares only hashes, never key bytes -/

/-- C9: after inserting key `k1`, looking up any distinct key `k2` with
the same FNV-1a hash returns `k1`'s statistics entry (whose stored key
span is still `k1`): the table never compares key bytes. -/
theorem C9_lookup_ignores_key_bytes (k1 k2 : List ℕ) (v : Data) (hne : k1 ≠ k2)
    (hh : Map.hash k1 = Map.hash k2) :
    Map.insert_with_hash Map.new k1 v (Map.hash k1) = some [⟨Map.hash k1, k1, v⟩] ∧
    Map.get_mut_with_hash [⟨Map.hash k1, k1, v⟩] k2 (Map.hash k2) = some (some v) := by
  refine ⟨rfl, ?_⟩
  rw [← hh]
  simp [Map.get_mut_with_hash, Map.findSlot, MapEntry.slot]

/-- C9 witness: `kc1 = "ktnfwokv"` and `kc2 = "exlhhtet"` are distinct
byte spans with equal FNV-1a hash; after `kc1` is inserted, the lookup of
`kc2` silently returns `kc1`'s entry. -/
theorem C9_lookup_ignores_key_bytes_witness :
    Map.insert_with_hash Map.new kc1 ⟨1, 1, 1, 1⟩ (Map.hash kc1) =
        some [⟨Map.hash kc1, kc1, ⟨1, 1, 1, 1⟩⟩] ∧
    Map.get_mut_with_hash [⟨Map.hash kc1, kc1, ⟨1, 1, 1, 1⟩⟩] kc2 (Map.hash kc2) =
        some (some ⟨1, 1, 1, 1⟩) :=
  C9_lookup_ignores_key_bytes kc1 kc2 ⟨1, 1, 1, 1⟩ (by decide) (by decide)

/-! ## C1, C2, C3 — the lane-window slip -/

/-- C1 (code bug, evaluation): on the three-record buffer `exBuf`, the
3-lane run and the 1-lane run of the full pipeline produce different
final tables (already their key/count views differ: lane 1's window is
measured from its adjusted start 17 and so re-covers offset 26, the
start of lane 2, double-counting the record `ccccc;3.3`). -/
theorem C1_lane_count_changes_result :
    (cluster_process exBuf 3 Map.new).map Map.countsView ≠
      (cluster_process exBuf 1 Map.new).map Map.countsView := by decide

/-- C2 (code bug, evaluation): with 3 lanes the final table reports
`count = 2` for key `ccccc`, while the direct sequential scan of `exBuf`
finds exactly one record with that key. -/
theorem C2_pipeline_disagrees_with_direct_scan :
    (cluster_process exBuf 3 Map.new).map Map.countsView =
      some [(keyC, 2), ([98, 98, 98, 98], 1),
            ([97, 97, 97, 97, 97, 97, 97, 97, 97, 97, 97, 97], 1)] ∧
    (scanVals exBuf keyC).length = 1 :=
  ⟨by decide, by decide⟩

/-- C3 (code bug, evaluation): with 3 lanes the counts over all keys sum
to 4, yet the buffer holds only 3 well-formed records. -/
theorem C3_count_not_conserved :
    (cluster_process exBuf 3 Map.new).map totalCount = some 4 ∧
      (records exBuf).length = 3 :=
  ⟨by decide, by decide⟩

/-! ## C10 — the lane window is measured from the adjusted start -/

/-- The lane scan loop with window size `size` from start `p` equals the
window scan over record starts in `[readptr, p + size)`. -/
theorem consumeLoopF_eq_windowScanF :
    ∀ (fuel : ℕ) (data : List ℕ) (p size readptr : ℕ) (store : Map), p ≤ readptr →
      consumeLoopF fuel data p size readptr store =
        windowScanF fuel data (p + size) readptr store := by
  intro fuel
  induction fuel with
  | zero => intro data p size readptr store hp; rfl
  | succ a ih =>
    intro data p size readptr store hp
    simp only [consumeLoopF, windowScanF]
    by_cases hg : readptr < p + size
    · rw [if_pos (show readptr - p < size by omega), if_pos hg]
      cases hp2 : process data readptr store with
      | none => rfl
      | some pr =>
        obtain ⟨store2, onext⟩ := pr
        cases onext with
        | none => rfl
        | some e =>
          have := process_next_lower hp2
          exact ih data p size (e + 1) store2 (by omega)
    · rw [if_neg (show ¬ readptr - p < size by omega), if_neg hg]

/-- The boundary adjustment never moves the start backwards. -/
theorem consumeStart_le {data : List ℕ} {off p : ℕ}
    (hx : consumeStart data off = some p) : off ≤ p := by
  unfold consumeStart at hx
  split at hx
  · rename_i h0; cases hx; omega
  · exact (findStartAux_spec _ _ _ hx).1

/-- C10: a lane's scan window is measured from its adjusted start `p`,
not its nominal offset `off`: the lane run equals the scan of exactly the
records whose start offsets lie in `[p, p + size)`; since `p = off + k`
for some `k ≥ 0`, that window ends `k` bytes past the nominal partition
end `off + size`. -/
theorem C10_window_measured_from_adjusted_start
    (data : List ℕ) (off size : ℕ) (store : Map) (p : ℕ)
    (hx : consumeStart data off = some p) :
    off ≤ p ∧ consume data off size store = windowScan data (p + size) p store := by
  refine ⟨consumeStart_le hx, ?_⟩
  simp only [consume, windowScan, hx]
  have hps : p + size - p = size := by omega
  rw [hps]
  exact consumeLoopF_eq_windowScanF (size + 1) data p size p store (le_refl p)

/-- C10 witness: lane 1 of the 3-lane run on `exBuf` has nominal offset
12 but adjusted start 17, so its window covers record starts in
`[17, 29)` — five bytes past its nominal end 24. -/
theorem C10_window_measured_from_adjusted_start_witness :
    12 ≤ 17 ∧ consume exBuf 12 12 Map.new = windowScan exBuf (17 + 12) 17 Map.new :=
  C10_window_measured_from_adjusted_start exBuf 12 12 Map.new 17 (by decide)

/-! ## C5, C6 — the numeric field parser on well-formed value spans -/

/-- On decimal digit bytes the wrapping byte subtraction is plain
subtraction. -/
theorem wsub8_digit {d : ℕ} (h1 : 48 ≤ d) (h2 : d ≤ 57) : wsub8 d 48 = d - 48 := by
  unfold wsub8; omega

/-- The delimiter scan over `key ++ ';' :: t` with `';' ∉ key` stops at
the `';'` and returns the hash folded over exactly the key bytes. -/
theorem findDelimAux_append :
    ∀ (key : List ℕ), 59 ∉ key → ∀ (t : List ℕ) (idx h : ℕ),
      findDelimAux (key ++ 59 :: t) idx h =
        some (idx + key.length, key.foldl fnvStep h) := by
  intro key
  induction key with
  | nil => intro _ t idx h; simp [findDelimAux]
  | cons c rest ih =>
    intro hk t idx h
    have hc : ¬ (c = 59) := by
      intro hce; exact hk (by simp [hce])
    have hrest : 59 ∉ rest := fun hm => hk (List.mem_cons_of_mem _ hm)
    simp only [List.cons_append, findDelimAux, if_neg hc, List.foldl_cons, List.append_eq]
    rw [ih hrest t (idx + 1) (fnvStep h c)]
    simp only [Option.some.injEq, Prod.mk.injEq, List.length_cons]
    exact ⟨by omega, trivial⟩

/-- Reading the buffer `j` bytes past the delimiter of a record whose
suffix at `offset` is `key ++ ';' :: t` reads `t[j]`. -/
theorem read_after_key {data key t : List ℕ} {offset : ℕ}
    (hsp : data.drop offset = key ++ 59 :: t) (j : ℕ) :
    data[offset + key.length + 1 + j]? = t[j]? := by
  have e0 : offset + key.length + 1 + j = offset + (key.length + (1 + j)) := by omega
  rw [e0, ← List.getElem?_drop, hsp,
    List.getElem?_append_right (by omega),
    show key.length + (1 + j) - key.length = j + 1 from by omega,
    List.getElem?_cons_succ]

/-- Characterization of `parse_line` on a record whose value span matches
the fixed-point grammar (optional `'-'`, one or two integer digits, `'.'`,
one fractional digit): the parser returns the key span, its FNV-1a hash,
the exact decimal value (sign-adjusted `(integer_digits * 10 +
fractional_digit) / 10`), and the `next` offset pointing exactly at the
terminating record separator (one past the fractional digit); the byte at
that offset is `'\n'`. -/
theorem parse_line_grammar (data : List ℕ) (offset : ℕ) (key : List ℕ) (sign : Bool)
    (ds : List ℕ) (f : ℕ) (rest : List ℕ)
    (hsplit : data.drop offset =
      key ++ [59] ++ (if sign then [45] else []) ++ ds ++ [46, f] ++ [10] ++ rest)
    (hkey : 59 ∉ key)
    (hds : ds.length = 1 ∨ ds.length = 2)
    (hdig : ∀ d ∈ ds, 48 ≤ d ∧ d ≤ 57)
    (hf : 48 ≤ f ∧ f ≤ 57) :
    parse_line data offset =
      some (some ⟨key, Map.hash key,
        (if sign then -1 else 1) * ((decVal ds * 10 + (f - 48) : ℕ) : ℚ) / 10,
        offset + key.length + 1 + (if sign then 1 else 0) + ds.length + 2⟩) ∧
    data[offset + key.length + 1 + (if sign then 1 else 0) + ds.length + 2]? = some 10 := by
  rcases ds with _ | ⟨d1, _ | ⟨d2, _ | ⟨d3, ds3⟩⟩⟩
  · simp at hds
  · -- one integer digit
    obtain ⟨hd1a, hd1b⟩ := hdig d1 (by simp)
    cases sign with
    | false =>
      have hsp : data.drop offset = key ++ 59 :: (d1 :: 46 :: f :: 10 :: rest) := by
        simpa using hsplit
      have hl := congrArg List.length hsp
      simp [List.length_drop] at hl
      have hlen : ¬ offset ≥ data.length := by omega
      have hfd : findDelim data offset = some (offset + key.length, Map.hash key) := by
        unfold findDelim
        rw [hsp]
        exact findDelimAux_append key hkey _ offset 2166136261
      have r0 := read_after_key hsp 0
      have r1 := read_after_key hsp 1
      have r2 := read_after_key hsp 2
      have r3 := read_after_key hsp 3
      simp only [Nat.add_zero, List.getElem?_cons_zero, List.getElem?_cons_succ]
        at r0 r1 r2 r3
      have hne45 : ¬ (d1 = 45) := by omega
      constructor
      · unfold parse_line
        rw [if_neg hlen, hfd]
        dsimp only
        simp only [r0, r1, r2, if_neg hne45, reduceIte, Bool.false_eq_true, if_false,
          List.length_cons, List.length_nil]
        simp only [Option.some.injEq, ParseResult.mk.injEq]
        refine ⟨?_, trivial, ?_, trivial⟩
        · rw [show offset + key.length - offset = key.length from by omega, hsp]
          exact List.take_left key _
        · rw [wsub8_digit hd1a hd1b, wsub8_digit hf.1 hf.2,
            show decVal [d1] = d1 - 48 from by simp [decVal]]
          ring
      · have hidx : offset + key.length + 1 + (if (false : Bool) then 1 else 0) +
            ([d1] : List ℕ).length + 2 = offset + key.length + 1 + 3 := by
          simp only [Bool.false_eq_true, if_false, List.length_cons, List.length_nil]
          try omega
        rw [hidx]
        exact r3
    | true =>
      have hsp : data.drop offset = key ++ 59 :: (45 :: d1 :: 46 :: f :: 10 :: rest) := by
        simpa using hsplit
      have hl := congrArg List.length hsp
      simp [List.length_drop] at hl
      have hlen : ¬ offset ≥ data.length := by omega
      have hfd : findDelim data offset = some (offset + key.length, Map.hash key) := by
        unfold findDelim
        rw [hsp]
        exact findDelimAux_append key hkey _ offset 2166136261
      have r0 := read_after_key hsp 0
      have r1 := read_after_key hsp 1
      have r2 := read_after_key hsp 2
      have r3 := read_after_key hsp 3
      have r4 := read_after_key hsp 4
      simp only [Nat.add_zero, List.getElem?_cons_zero, List.getElem?_cons_succ]
        at r0 r1 r2 r3 r4
      constructor
      · unfold parse_line
        rw [if_neg hlen, hfd]
        dsimp only
        simp only [show offset + key.length + 1 + 1 + 1 = offset + key.length + 1 + 2
            from by omega,
          show offset + key.length + 1 + 1 + 2 = offset + key.length + 1 + 3
            from by omega,
          r0, r1, r2, r3, reduceIte, List.length_cons, List.length_nil]
        simp only [Option.some.injEq, ParseResult.mk.injEq]
        refine ⟨?_, trivial, ?_, trivial⟩
        · rw [show offset + key.length - offset = key.length from by omega, hsp]
          exact List.take_left key _
        · rw [wsub8_digit hd1a hd1b, wsub8_digit hf.1 hf.2,
            show decVal [d1] = d1 - 48 from by simp [decVal]]
          ring
      · have hidx : offset + key.length + 1 + (if (true : Bool) then 1 else 0) +
            ([d1] : List ℕ).length + 2 = offset + key.length + 1 + 4 := by
          simp only [reduceIte, List.length_cons, List.length_nil]
          try omega
        rw [hidx]
        exact r4
  · -- two integer digits
    obtain ⟨hd1a, hd1b⟩ := hdig d1 (by simp)
    obtain ⟨hd2a, hd2b⟩ := hdig d2 (by simp)
    cases sign with
    | false =>
      have hsp : data.drop offset = key ++ 59 :: (d1 :: d2 :: 46 :: f :: 10 :: rest) := by
        simpa using hsplit
      have hl := congrArg List.length hsp
      simp [List.length_drop] at hl
      have hlen : ¬ offset ≥ data.length := by omega
      have hfd : findDelim data offset = some (offset + key.length, Map.hash key) := by
        unfold findDelim
        rw [hsp]
        exact findDelimAux_append key hkey _ offset 2166136261
      have r0 := read_after_key hsp 0
      have r1 := read_after_key hsp 1
      have r3 := read_after_key hsp 3
      have r4 := read_after_key hsp 4
      simp only [Nat.add_zero, List.getElem?_cons_zero, List.getElem?_cons_succ]
        at r0 r1 r3 r4
      have hne45 : ¬ (d1 = 45) := by omega
      have hne46 : ¬ (d2 = 46) := by omega
      constructor
      · unfold parse_line
        rw [if_neg hlen, hfd]
        dsimp only
        simp only [r0, r1, r3, if_neg hne45, if_neg hne46, reduceIte, Bool.false_eq_true,
          if_false, List.length_cons, List.length_nil]
        simp only [Option.some.injEq, ParseResult.mk.injEq]
        refine ⟨?_, trivial, ?_, trivial⟩
        · rw [show offset + key.length - offset = key.length from by omega, hsp]
          exact List.take_left key _
        · rw [wsub8_digit hd1a hd1b, wsub8_digit hd2a hd2b, wsub8_digit hf.1 hf.2,
            show decVal [d1, d2] = (d1 - 48) * 10 + (d2 - 48) from by simp [decVal]]
          ring
      · have hidx : offset + key.length + 1 + (if (false : Bool) then 1 else 0) +
            ([d1, d2] : List ℕ).length + 2 = offset + key.length + 1 + 4 := by
          simp only [Bool.false_eq_true, if_false, List.length_cons, List.length_nil]
          try omega
        rw [hidx]
        exact r4
    | true =>
      have hsp : data.drop offset =
          key ++ 59 :: (45 :: d1 :: d2 :: 46 :: f :: 10 :: rest) := by
        simpa using hsplit
      have hl := congrArg List.length hsp
      simp [List.length_drop] at hl
      have hlen : ¬ offset ≥ data.length := by omega
      have hfd : findDelim data offset = some (offset + key.length, Map.hash key) := by
        unfold findDelim
        rw [hsp]
        exact findDelimAux_append key hkey _ offset 2166136261
      have r0 := read_after_key hsp 0
      have r1 := read_after_key hsp 1
      have r2 := read_after_key hsp 2
      have r4 := read_after_key hsp 4
      have r5 := read_after_key hsp 5
      simp only [Nat.add_zero, List.getElem?_cons_zero, List.getElem?_cons_succ]
        at r0 r1 r2 r4 r5
      have hne46 : ¬ (d2 = 46) := by omega
      constructor
      · unfold parse_line
        rw [if_neg hlen, hfd]
        dsimp only
        simp only [show offset + key.length + 1 + 1 + 1 = offset + key.length + 1 + 2
            from by omega,
          show offset + key.length + 1 + 1 + 3 = offset + key.length + 1 + 4
            from by omega,
          r0, r1, r2, r4, if_neg hne46, reduceIte, List.length_cons, List.length_nil]
        simp only [Option.some.injEq, ParseResult.mk.injEq]
        refine ⟨?_, trivial, ?_, trivial⟩
        · rw [show offset + key.length - offset = key.length from by omega, hsp]
          exact List.take_left key _
        · rw [wsub8_digit hd1a hd1b, wsub8_digit hd2a hd2b, wsub8_digit hf.1 hf.2,
            show decVal [d1, d2] = (d1 - 48) * 10 + (d2 - 48) from by simp [decVal]]
          ring
      · have hidx : offset + key.length + 1 + (if (true : Bool) then 1 else 0) +
            ([d1, d2] : List ℕ).length + 2 = offset + key.length + 1 + 5 := by
          simp only [reduceIte, List.length_cons, List.length_nil]
          try omega
        rw [hidx]
        exact r5
  · have := hds
    simp [List.length_cons] at this
    try omega

/-- C5: on every value byte span matching the fixed-point grammar, the
numeric field parser returns the exact decimal value
`(integer_digits * 10 + fractional_digit) / 10`, sign-adjusted. -/
theorem C5_value_parser_exact (data : List ℕ) (offset : ℕ) (key : List ℕ) (sign : Bool)
    (ds : List ℕ) (f : ℕ) (rest : List ℕ)
    (hsplit : data.drop offset =
      key ++ [59] ++ (if sign then [45] else []) ++ ds ++ [46, f] ++ [10] ++ rest)
    (hkey : 59 ∉ key)
    (hds : ds.length = 1 ∨ ds.length = 2)
    (hdig : ∀ d ∈ ds, 48 ≤ d ∧ d ≤ 57)
    (hf : 48 ≤ f ∧ f ≤ 57) :
    plVal (parse_line data offset) =
      some ((if sign then -1 else 1) * ((decVal ds * 10 + (f - 48) : ℕ) : ℚ) / 10) := by
  rw [(parse_line_grammar data offset key sign ds f rest hsplit hkey hds hdig hf).1]
  rfl

/-- C5 witness: on `"k;-25.3\n"` the parser returns the exact value
`-25.3` (as `-1 * 253 / 10`). -/
theorem C5_value_parser_exact_witness :
    plVal (parse_line [107, 59, 45, 50, 53, 46, 51, 10] 0) =
      some ((if true then -1 else 1) * ((decVal [50, 53] * 10 + (51 - 48) : ℕ) : ℚ) / 10) :=
  C5_value_parser_exact [107, 59, 45, 50, 53, 46, 51, 10] 0 [107] true [50, 53] 51 []
    (by decide) (by decide) (by decide) (by decide) (by decide)

/-- C6 counterexample: on the record `"a;1.1\n"` the parser returns
`next = 5`, which is the offset OF the terminating separator (the byte
there is `'\n'`) — not `6`, the offset one past it as the claim states. -/
theorem C6_next_is_separator_offset :
    plNext (parse_line [97, 59, 49, 46, 49, 10] 0) = some 5 ∧
      ([97, 59, 49, 46, 49, 10] : List ℕ)[5]? = some 10 ∧
      plNext (parse_line [97, 59, 49, 46, 49, 10] 0) ≠ some 6 :=
  ⟨by decide, by decide, by decide⟩

/-- C6 (amended): for every byte span conforming to the value grammar,
the parser returns, along with the value, the offset OF the terminating
record separator (one past the final fractional digit); the byte at that
offset is `'\n'`, and the caller (`consume`) advances past it with
`next + 1`. -/
theorem C6_amended_next_at_separator (data : List ℕ) (offset : ℕ) (key : List ℕ)
    (sign : Bool) (ds : List ℕ) (f : ℕ) (rest : List ℕ)
    (hsplit : data.drop offset =
      key ++ [59] ++ (if sign then [45] else []) ++ ds ++ [46, f] ++ [10] ++ rest)
    (hkey : 59 ∉ key)
    (hds : ds.length = 1 ∨ ds.length = 2)
    (hdig : ∀ d ∈ ds, 48 ≤ d ∧ d ≤ 57)
    (hf : 48 ≤ f ∧ f ≤ 57) :
    plNext (parse_line data offset) =
      some (offset + key.length + 1 + (if sign then 1 else 0) + ds.length + 2) ∧
    data[offset + key.length + 1 + (if sign then 1 else 0) + ds.length + 2]? =
      some 10 := by
  obtain ⟨h1, h2⟩ := parse_line_grammar data offset key sign ds f rest hsplit hkey hds hdig hf
  refine ⟨?_, h2⟩
  rw [h1]
  rfl

/-- C6 amended witness: on `"a;1.1\n"` the parser's `next` is offset 5,
where the separator byte sits. -/
theorem C6_amended_next_at_separator_witness :
    plNext (parse_line [97, 59, 49, 46, 49, 10] 0) =
      some (0 + [97].length + 1 + (if false then 1 else 0) + [49].length + 2) ∧
    ([97, 59, 49, 46, 49, 10] : List ℕ)[0 + [97].length + 1 +
      (if false then 1 else 0) + [49].length + 2]? = some 10 :=
  C6_amended_next_at_separator [97, 59, 49, 46, 49, 10] 0 [97] false [49] 49 []
    (by decide) (by decide) (by decide) (by decide) (by decide)

end BRC
